import Mathlib

/-!
Shallow embedding of the moving-average crossover backtest in
`MovingAverageCrossStrategy.py`.

The script contributes the per-bar decision logic (`MovingAverageCrossStrategy.next`,
src lines 74-89) and the driver `run_backtest` (src lines 91-135).  The simple moving
averages, the crossover indicator and the broker fill/accounting live in the
`backtrader` framework, which is not part of this repository; those parts are
modelled from the spec (sections 3, 4.1 and 4.2), adopting the spec's documented
signal-bar-close fill convention.  Prices and cash are modelled as exact rationals.
-/

/-- Python `int()` applied to an exact rational: truncation toward zero
(equal to the floor for non-negative arguments, as in `size = int(cash * 0.95 / close)`
on src line 82). -/
def pyInt (x : ℚ) : Int := if 0 ≤ x then ⌊x⌋ else ⌈x⌉

/-- Modelled from the spec (section 9 design note): the streaming running-sum
accumulator behind the simple moving average.  `runningSums a closes` lists the
partial sums `a, a + c0, a + c0 + c1, ...` — one entry per prefix of `closes`,
so entry `k` is `a` plus the sum of the first `k` closes. -/
def runningSums (a : ℚ) : List ℚ → List ℚ
  | [] => [a]
  | c :: rest => a :: runningSums (a + c) rest

/-- Modelled from the spec (section 4.1): `bt.indicators.SimpleMovingAverage`
(framework code, not in this repository).  `smaAt period closes i` is the simple
moving average of the trailing `period` closes ending at bar `i`, undefined
(`none`) while fewer than `period` bars are available or past the end of the
series.  Computed from the incremental running sums. -/
def smaAt (period : Nat) (closes : List ℚ) (i : Nat) : Option ℚ :=
  if 1 ≤ period ∧ period ≤ i + 1 ∧ i < closes.length then
    some (((runningSums 0 closes).getD (i + 1) 0
            - (runningSums 0 closes).getD (i + 1 - period) 0) / (period : ℚ))
  else none

/-- Modelled from the spec (section 4.1): `bt.indicators.CrossOver` (framework
code, not in this repository).  `+1` when the short average was `≤` the long
average at `i-1` and is `>` at `i`, `-1` for the symmetric downward cross, `0`
otherwise; `0` whenever either moving average is undefined at `i-1` or `i`
(in particular at bar `0`, which has no predecessor). -/
def crossoverAt (s l : Nat) (closes : List ℚ) : Nat → Int
  | 0 => 0
  | j + 1 =>
    match smaAt s closes j, smaAt l closes j,
          smaAt s closes (j + 1), smaAt l closes (j + 1) with
    | some ps, some pl, some cs, some cl =>
        if ps ≤ pl ∧ cl < cs then 1
        else if pl ≤ ps ∧ cs < cl then -1
        else 0
    | _, _, _, _ => 0

/-- Order side, as in the spec's Order record (section 3). -/
inductive Side where
  | buy
  | sell
deriving DecidableEq, Repr

/-- An order, created and resolved within the same per-bar step
(spec section 3: no multi-bar pending state). -/
structure Order where
  side : Side
  size : Int
deriving DecidableEq, Repr

/-- A closed trade record (spec section 3); `gross_pnl` and `net_pnl` follow the
framework's `trade.pnl` / `trade.pnlcomm` reported by `notify_trade`
(src lines 61-66), as documented in spec section 4.2. -/
structure Trade where
  entry_price : ℚ
  exit_price : ℚ
  size : Int
  gross_pnl : ℚ
  entry_comm : ℚ
  exit_comm : ℚ
  net_pnl : ℚ
deriving DecidableEq, Repr

/-- The execution-engine state: broker cash plus the single position book
(spec section 3; `size = 0` is the `FLAT` state, matching the falsiness of
`self.position` on src line 77) and the accumulated trade log. -/
structure EngineState where
  cash : ℚ
  size : Int
  entry_price : ℚ
  entry_comm : ℚ
  trades : List Trade
deriving DecidableEq, Repr

/-- Configuration: strategy params (src lines 15-19) together with the broker
commission rate set in `run_backtest` (src line 123). -/
structure Config where
  short_period : Nat
  long_period : Nat
  commission : ℚ
  printlog : Bool
deriving DecidableEq, Repr

/-- The defaults: `short_period=10`, `long_period=30`, `printlog=True`
(src lines 15-19) and commission `0.001` (src line 123). -/
def defaultParams : Config := ⟨10, 30, 1 / 1000, true⟩

namespace MovingAverageCrossStrategy

/-- One per-bar step.  The dispatch — buy when flat and the crossover is
positive with `size = int(cash * 0.95 / close)`, sell the whole position when
long and the crossover is negative — embeds `MovingAverageCrossStrategy.next`
(src lines 74-89).  Order resolution is modelled from the spec (section 4.2):
fills happen immediately at the bar close with commission
`size * price * rate`; a computed size `≤ 0` is a skipped signal — no
transition, no order. -/
def next (rate : ℚ) (st : EngineState) (cross : Int) (close : ℚ) :
    EngineState × Option Order :=
  if st.size = 0 then
    if 0 < cross then
      let size : Int := pyInt (st.cash * (95 / 100) / close)
      if size ≤ 0 then (st, none)
      else
        let comm : ℚ := (size : ℚ) * close * rate
        ({ st with
            cash := st.cash - (size : ℚ) * close - comm
            size := size
            entry_price := close
            entry_comm := comm }, some ⟨Side.buy, size⟩)
    else (st, none)
  else
    if cross < 0 then
      let comm : ℚ := (st.size : ℚ) * close * rate
      let gross : ℚ := (close - st.entry_price) * (st.size : ℚ)
      ({ cash := st.cash + (st.size : ℚ) * close - comm
         size := 0
         entry_price := 0
         entry_comm := 0
         trades := st.trades ++
           [⟨st.entry_price, close, st.size, gross, st.entry_comm, comm,
             gross - st.entry_comm - comm⟩] }, some ⟨Side.sell, st.size⟩)
    else (st, none)

end MovingAverageCrossStrategy

/-- The engine state at the start of a run: all cash, no position, empty
trade log. -/
def initState (cash : ℚ) : EngineState := ⟨cash, 0, 0, 0, []⟩

/-- Run the per-bar step over the listed bar indices in order, returning the
final engine state. -/
def runState (cfg : Config) (closes : List ℚ) : EngineState → List Nat → EngineState
  | st, [] => st
  | st, i :: rest =>
      runState cfg closes
        (MovingAverageCrossStrategy.next cfg.commission st
          (crossoverAt cfg.short_period cfg.long_period closes i)
          (closes.getD i 0)).1 rest

/-- Broker account value at a bar, as sampled by the framework's
`broker.getvalue()` (modelled from the spec, section 4.3): cash plus position
size times the bar close. -/
def equity (st : EngineState) (close : ℚ) : ℚ := st.cash + (st.size : ℚ) * close

/-- The equity readings taken after each listed bar, in order. -/
def equityList (cfg : Config) (closes : List ℚ) : EngineState → List Nat → List ℚ
  | _, [] => []
  | st, i :: rest =>
      let st1 := (MovingAverageCrossStrategy.next cfg.commission st
          (crossoverAt cfg.short_period cfg.long_period closes i)
          (closes.getD i 0)).1
      equity st1 (closes.getD i 0) :: equityList cfg closes st1 rest

/-- The full equity curve of a run: one equity sample after every bar. -/
def equityCurve (cfg : Config) (cash : ℚ) (closes : List ℚ) : List ℚ :=
  equityList cfg closes (initState cash) (List.range closes.length)

/-- The engine state after bars `0..i` of a run have been processed. -/
def stateAfterBar (cfg : Config) (cash : ℚ) (closes : List ℚ) (i : Nat) : EngineState :=
  runState cfg closes (initState cash) (List.range (i + 1))

/-- The final engine state of a full run over the whole series. -/
def backtestFinal (cfg : Config) (cash : ℚ) (closes : List ℚ) : EngineState :=
  runState cfg closes (initState cash) (List.range closes.length)

/-- Embeds `run_backtest` (src lines 91-135): it builds the engine and runs the
simulation directly — the source performs no validation of the configuration
and raises no configuration error anywhere on the path to `cerebro.run()`.
The `Except` result type records the error channel that spec section 7 claims
(rejection of a bad configuration with a descriptive message); the code never
uses it. -/
def run_backtest (cfg : Config) (cash : ℚ) (closes : List ℚ) :
    Except String (EngineState × List ℚ) :=
  Except.ok (backtestFinal cfg cash closes, equityCurve cfg cash closes)

/-- The worked example series from spec section 8. -/
def demoCloses : List ℚ := [10, 10, 10, 10, 10, 11, 12, 13, 12, 11, 10, 9, 10, 11, 12]

/-- The worked example configuration from spec section 8: `short_period=2`,
`long_period=4`, zero commission. -/
def demoCfg : Config := ⟨2, 4, 0, true⟩

/-- A configuration that spec section 7 says must be rejected:
`short_period >= long_period` and a negative commission rate. -/
def badCfg : Config := ⟨40, 30, -(1 / 1000), true⟩

/-- A concrete LONG-state engine snapshot: 100 cash, 5 shares bought at 10
with no entry commission, empty trade log. -/
def demoLong : EngineState := ⟨100, 5, 10, 0, []⟩

/-! ## Helper lemmas -/

theorem runningSums_getD (l : List ℚ) (a : ℚ) (k : Nat) (hk : k ≤ l.length) :
    (runningSums a l).getD k 0 = a + (l.take k).sum := by
  induction l generalizing a k with
  | nil =>
    cases Nat.le_zero.mp hk
    simp [runningSums]
  | cons c rest ih =>
    cases k with
    | zero => simp [runningSums]
    | succ k =>
      simp only [runningSums, List.getD_cons_succ, List.take_succ_cons, List.sum_cons]
      rw [ih (a + c) k (by simpa using hk)]
      ring

theorem smaAt_eq_none (period : Nat) (closes : List ℚ) (i : Nat)
    (h : ¬(1 ≤ period ∧ period ≤ i + 1 ∧ i < closes.length)) :
    smaAt period closes i = none := by
  rw [smaAt, if_neg h]

theorem smaAt_eq_window (period : Nat) (closes : List ℚ) (i : Nat)
    (hp : 1 ≤ period) (h1 : period ≤ i + 1) (h2 : i < closes.length) :
    smaAt period closes i
      = some ((((closes.take (i + 1)).drop (i + 1 - period)).sum) / (period : ℚ)) := by
  rw [smaAt, if_pos ⟨hp, h1, h2⟩]
  rw [runningSums_getD closes 0 (i + 1) (by omega),
      runningSums_getD closes 0 (i + 1 - period) (by omega)]
  have hsplit : closes.take (i + 1)
      = (closes.take (i + 1)).take (i + 1 - period)
        ++ (closes.take (i + 1)).drop (i + 1 - period) :=
    (List.take_append_drop _ _).symm
  have htt : (closes.take (i + 1)).take (i + 1 - period)
      = closes.take (i + 1 - period) := by
    rw [List.take_take]
    congr 1
    omega
  have hsum : (closes.take (i + 1)).sum
      = (closes.take (i + 1 - period)).sum
        + ((closes.take (i + 1)).drop (i + 1 - period)).sum := by
    conv_lhs => rw [hsplit]
    rw [List.sum_append, htt]
  rw [zero_add, zero_add, hsum]
  ring_nf

theorem crossoverAt_zero (s l : Nat) (closes : List ℚ) : crossoverAt s l closes 0 = 0 := rfl

theorem crossoverAt_of_none (s l : Nat) (closes : List ℚ) (i : Nat)
    (h : smaAt s closes i = none ∨ smaAt l closes i = none) :
    crossoverAt s l closes i = 0 := by
  cases i with
  | zero => rfl
  | succ j =>
    rcases hps : smaAt s closes j with _ | ps <;>
      rcases hpl : smaAt l closes j with _ | pl <;>
        rcases hcs : smaAt s closes (j + 1) with _ | cs <;>
          rcases hcl : smaAt l closes (j + 1) with _ | cl <;>
            simp_all [crossoverAt]

theorem crossoverAt_succ_any_none (s l : Nat) (closes : List ℚ) (j : Nat)
    (h : smaAt s closes j = none ∨ smaAt l closes j = none ∨
         smaAt s closes (j + 1) = none ∨ smaAt l closes (j + 1) = none) :
    crossoverAt s l closes (j + 1) = 0 := by
  rcases hps : smaAt s closes j with _ | ps <;>
    rcases hpl : smaAt l closes j with _ | pl <;>
      rcases hcs : smaAt s closes (j + 1) with _ | cs <;>
        rcases hcl : smaAt l closes (j + 1) with _ | cl <;>
          simp_all [crossoverAt]

theorem crossoverAt_all_some (s l : Nat) (closes : List ℚ) (j : Nat)
    (ps pl cs cl : ℚ)
    (hps : smaAt s closes j = some ps) (hpl : smaAt l closes j = some pl)
    (hcs : smaAt s closes (j + 1) = some cs) (hcl : smaAt l closes (j + 1) = some cl) :
    crossoverAt s l closes (j + 1)
      = if ps ≤ pl ∧ cl < cs then 1 else if pl ≤ ps ∧ cs < cl then -1 else 0 := by
  simp only [crossoverAt, hps, hpl, hcs, hcl]

theorem pyInt_eq_floor (x : ℚ) (h : 0 ≤ x) : pyInt x = ⌊x⌋ := if_pos h

theorem next_cross_zero (rate : ℚ) (st : EngineState) (close : ℚ) :
    MovingAverageCrossStrategy.next rate st 0 close = (st, none) := by
  simp only [MovingAverageCrossStrategy.next]
  split_ifs <;> simp_all

theorem next_flat_nonpos (rate : ℚ) (st : EngineState) (cross : Int) (close : ℚ)
    (hflat : st.size = 0) (hc : cross ≤ 0) :
    MovingAverageCrossStrategy.next rate st cross close = (st, none) := by
  simp only [MovingAverageCrossStrategy.next]
  split_ifs <;> first
  | rfl
  | omega

theorem next_long_nonneg (rate : ℚ) (st : EngineState) (cross : Int) (close : ℚ)
    (hlong : st.size ≠ 0) (hc : 0 ≤ cross) :
    MovingAverageCrossStrategy.next rate st cross close = (st, none) := by
  simp only [MovingAverageCrossStrategy.next]
  split_ifs <;> first
  | rfl
  | omega

theorem next_size_nonneg (rate : ℚ) (st : EngineState) (cross : Int) (close : ℚ)
    (h : 0 ≤ st.size) :
    0 ≤ (MovingAverageCrossStrategy.next rate st cross close).1.size := by
  simp only [MovingAverageCrossStrategy.next]
  split_ifs <;> simp_all
  omega

theorem runState_size_nonneg (cfg : Config) (closes : List ℚ) (l : List Nat)
    (st : EngineState) (h : 0 ≤ st.size) :
    0 ≤ (runState cfg closes st l).size := by
  induction l generalizing st with
  | nil => exact h
  | cons i rest ih =>
    exact ih _ (next_size_nonneg _ _ _ _ h)

theorem runState_of_cross_zero (cfg : Config) (closes : List ℚ) (l : List Nat)
    (st : EngineState)
    (h : ∀ i ∈ l, crossoverAt cfg.short_period cfg.long_period closes i = 0) :
    runState cfg closes st l = st := by
  induction l generalizing st with
  | nil => rfl
  | cons i rest ih =>
    have hz := h i (List.mem_cons_self i rest)
    show runState cfg closes _ rest = st
    rw [hz, next_cross_zero]
    exact ih st fun j hj => h j (List.mem_cons_of_mem i hj)

theorem equityList_getD (cfg : Config) (closes : List ℚ) (l : List Nat)
    (st : EngineState) (k : Nat) (hk : k < l.length) :
    (equityList cfg closes st l).getD k 0
      = equity (runState cfg closes st (l.take (k + 1)))
          (closes.getD (l.getD k 0) 0) := by
  induction l generalizing st k with
  | nil => simp at hk
  | cons i rest ih =>
    cases k with
    | zero =>
      simp [equityList, runState, List.take_succ_cons]
    | succ k =>
      simp only [equityList, List.getD_cons_succ, List.take_succ_cons]
      exact ih _ k (by simpa using hk)

theorem range_getD (n i : Nat) (h : i < n) : (List.range n).getD i 0 = i := by
  rw [List.getD_eq_getElem _ 0 (by simpa using h)]
  simp

/-! ## Claim theorems -/

/-- C4: for every price series and every period `≥ 1`, the simple moving
average is undefined at every index below `period - 1` (and past the end of
the series), and at every in-range index from `period - 1` on it equals the
arithmetic mean of the trailing `period` closes ending at that bar — the sum
of that window divided by `period`, the window having exactly `period`
elements. -/
theorem sma_undefined_then_window_mean (period : Nat) (closes : List ℚ) (i : Nat)
    (hp : 1 ≤ period) :
    (i + 1 < period ∨ closes.length ≤ i → smaAt period closes i = none) ∧
    (period ≤ i + 1 → i < closes.length →
      smaAt period closes i
        = some ((((closes.take (i + 1)).drop (i + 1 - period)).sum) / (period : ℚ)) ∧
      ((closes.take (i + 1)).drop (i + 1 - period)).length = period) := by
  constructor
  · intro h
    exact smaAt_eq_none period closes i (by omega)
  · intro h1 h2
    refine ⟨smaAt_eq_window period closes i hp h1 h2, ?_⟩
    rw [List.length_drop, List.length_take]
    omega

/-- C4 witness: with period 3 over the demo series the average is undefined at
bar 1 and equals the trailing three-bar mean at bar 4. -/
theorem sma_undefined_then_window_mean_w :
    smaAt 3 demoCloses 1 = none ∧
    (smaAt 3 demoCloses 4
        = some ((((demoCloses.take 5).drop 2).sum) / (3 : ℚ)) ∧
      ((demoCloses.take 5).drop 2).length = 3) :=
  ⟨(sma_undefined_then_window_mean 3 demoCloses 1 (by norm_num)).1 (Or.inl (by norm_num)),
   (sma_undefined_then_window_mean 3 demoCloses 4 (by norm_num)).2 (by norm_num)
     (by norm_num [demoCloses])⟩

/-- C6: when the series is shorter than the long period, the crossover signal
is 0 at every bar of the series and the run completes with the engine state
left exactly as it started — no transition ever fires and nothing fails. -/
theorem short_series_never_trades (cfg : Config) (cash : ℚ) (closes : List ℚ)
    (h : closes.length < cfg.long_period) :
    (∀ i, i < closes.length →
        crossoverAt cfg.short_period cfg.long_period closes i = 0) ∧
    backtestFinal cfg cash closes = initState cash := by
  have hnone : ∀ i, i < closes.length → smaAt cfg.long_period closes i = none := by
    intro i hi
    exact smaAt_eq_none _ closes i (by omega)
  have hz : ∀ i, i < closes.length →
      crossoverAt cfg.short_period cfg.long_period closes i = 0 := by
    intro i hi
    cases i with
    | zero => rfl
    | succ j => exact crossoverAt_of_none _ _ closes (j + 1) (Or.inr (hnone (j + 1) hi))
  refine ⟨hz, ?_⟩
  exact runState_of_cross_zero cfg closes _ _ fun i hi => hz i (List.mem_range.mp hi)

/-- C6 witness: with the default 30-bar long period, a three-bar series
produces a zero crossover at bar 1 and a final state equal to the initial
one. -/
theorem short_series_never_trades_w :
    crossoverAt defaultParams.short_period defaultParams.long_period [10, 11, 12] 1 = 0 ∧
    backtestFinal defaultParams 100000 [10, 11, 12] = initState 100000 :=
  ⟨(short_series_never_trades defaultParams 100000 [10, 11, 12]
      (by norm_num [defaultParams])).1 1 (by norm_num),
   (short_series_never_trades defaultParams 100000 [10, 11, 12]
      (by norm_num [defaultParams])).2⟩

/-- C7: the engine is long-only — the single position book's size stays
non-negative through any run — and a signal that does not match the current
state's exit condition is a no-op: a zero crossover never changes the state,
a non-positive crossover is ignored while flat, and a non-negative crossover
is ignored while a position is open. -/
theorem long_only_no_op :
    (∀ (rate : ℚ) (st : EngineState) (close : ℚ),
        MovingAverageCrossStrategy.next rate st 0 close = (st, none)) ∧
    (∀ (rate : ℚ) (st : EngineState) (cross : Int) (close : ℚ),
        st.size = 0 → cross ≤ 0 →
        MovingAverageCrossStrategy.next rate st cross close = (st, none)) ∧
    (∀ (rate : ℚ) (st : EngineState) (cross : Int) (close : ℚ),
        st.size ≠ 0 → 0 ≤ cross →
        MovingAverageCrossStrategy.next rate st cross close = (st, none)) ∧
    (∀ (cfg : Config) (cash : ℚ) (closes : List ℚ) (l : List Nat),
        0 ≤ (runState cfg closes (initState cash) l).size) :=
  ⟨next_cross_zero, next_flat_nonpos, next_long_nonneg,
   fun cfg _cash closes l => runState_size_nonneg cfg closes l _ le_rfl⟩

/-- C7 witness: a downward cross while flat leaves the state unchanged, and a
concrete two-bar run ends with a non-negative position size. -/
theorem long_only_no_op_w :
    MovingAverageCrossStrategy.next 0 (initState 100) (-1) 10 = (initState 100, none) ∧
    0 ≤ (runState defaultParams [10, 11] (initState 100) [0, 1]).size :=
  ⟨long_only_no_op.2.1 0 (initState 100) (-1) 10 rfl (by norm_num),
   long_only_no_op.2.2.2 defaultParams 100 [10, 11] [0, 1]⟩

/-- C3: the crossover signal is `+1` exactly when both moving averages are
defined at the bar and its predecessor with the short average `≤` the long one
before and `>` it now, `-1` exactly for the symmetric downward cross, and `0`
in every other case — in particular whenever either moving average is
undefined at the bar, and at bar 0, which has no predecessor. -/
theorem crossover_sign_characterisation (s l : Nat) (closes : List ℚ) :
    crossoverAt s l closes 0 = 0 ∧
    (∀ j : Nat,
      (crossoverAt s l closes (j + 1) = 1 ↔
        ∃ ps pl cs cl,
          smaAt s closes j = some ps ∧ smaAt l closes j = some pl ∧
          smaAt s closes (j + 1) = some cs ∧ smaAt l closes (j + 1) = some cl ∧
          ps ≤ pl ∧ cl < cs) ∧
      (crossoverAt s l closes (j + 1) = -1 ↔
        ∃ ps pl cs cl,
          smaAt s closes j = some ps ∧ smaAt l closes j = some pl ∧
          smaAt s closes (j + 1) = some cs ∧ smaAt l closes (j + 1) = some cl ∧
          pl ≤ ps ∧ cs < cl) ∧
      (crossoverAt s l closes (j + 1) = 1 ∨ crossoverAt s l closes (j + 1) = -1 ∨
        crossoverAt s l closes (j + 1) = 0)) ∧
    (∀ i : Nat, smaAt s closes i = none ∨ smaAt l closes i = none →
      crossoverAt s l closes i = 0) := by
  refine ⟨rfl, ?_, crossoverAt_of_none s l closes⟩
  intro j
  by_cases hall : ∃ ps pl cs cl,
      smaAt s closes j = some ps ∧ smaAt l closes j = some pl ∧
      smaAt s closes (j + 1) = some cs ∧ smaAt l closes (j + 1) = some cl
  · obtain ⟨ps, pl, cs, cl, hps, hpl, hcs, hcl⟩ := hall
    have exUp : (∃ ps1 pl1 cs1 cl1,
        smaAt s closes j = some ps1 ∧ smaAt l closes j = some pl1 ∧
        smaAt s closes (j + 1) = some cs1 ∧ smaAt l closes (j + 1) = some cl1 ∧
        ps1 ≤ pl1 ∧ cl1 < cs1) ↔ (ps ≤ pl ∧ cl < cs) := by
      constructor
      · rintro ⟨ps1, pl1, cs1, cl1, e1, e2, e3, e4, hle, hlt⟩
        rw [hps] at e1
        rw [hpl] at e2
        rw [hcs] at e3
        rw [hcl] at e4
        obtain rfl := Option.some.inj e1
        obtain rfl := Option.some.inj e2
        obtain rfl := Option.some.inj e3
        obtain rfl := Option.some.inj e4
        exact ⟨hle, hlt⟩
      · intro hc
        exact ⟨ps, pl, cs, cl, hps, hpl, hcs, hcl, hc.1, hc.2⟩
    have exDown : (∃ ps1 pl1 cs1 cl1,
        smaAt s closes j = some ps1 ∧ smaAt l closes j = some pl1 ∧
        smaAt s closes (j + 1) = some cs1 ∧ smaAt l closes (j + 1) = some cl1 ∧
        pl1 ≤ ps1 ∧ cs1 < cl1) ↔ (pl ≤ ps ∧ cs < cl) := by
      constructor
      · rintro ⟨ps1, pl1, cs1, cl1, e1, e2, e3, e4, hle, hlt⟩
        rw [hps] at e1
        rw [hpl] at e2
        rw [hcs] at e3
        rw [hcl] at e4
        obtain rfl := Option.some.inj e1
        obtain rfl := Option.some.inj e2
        obtain rfl := Option.some.inj e3
        obtain rfl := Option.some.inj e4
        exact ⟨hle, hlt⟩
      · intro hc
        exact ⟨ps, pl, cs, cl, hps, hpl, hcs, hcl, hc.1, hc.2⟩
    rw [crossoverAt_all_some s l closes j ps pl cs cl hps hpl hcs hcl]
    by_cases h1 : ps ≤ pl ∧ cl < cs
    · rw [if_pos h1]
      refine ⟨iff_of_true rfl (exUp.mpr h1), iff_of_false (by norm_num) ?_, Or.inl rfl⟩
      intro hd
      exact absurd (exDown.mp hd).2 (not_lt.mpr h1.2.le)
    · rw [if_neg h1]
      by_cases h2 : pl ≤ ps ∧ cs < cl
      · rw [if_pos h2]
        refine ⟨iff_of_false (by norm_num) ?_, iff_of_true rfl (exDown.mpr h2),
          Or.inr (Or.inl rfl)⟩
        intro hu
        exact absurd (exUp.mp hu) h1
      · rw [if_neg h2]
        refine ⟨iff_of_false (by norm_num) ?_, iff_of_false (by norm_num) ?_,
          Or.inr (Or.inr rfl)⟩
        · intro hu
          exact absurd (exUp.mp hu) h1
        · intro hd
          exact absurd (exDown.mp hd) h2
  · have hz : crossoverAt s l closes (j + 1) = 0 := by
      apply crossoverAt_succ_any_none s l closes j
      by_contra hcon
      push_neg at hcon
      obtain ⟨h1, h2, h3, h4⟩ := hcon
      exact hall ⟨(smaAt s closes j).get (Option.ne_none_iff_isSome.mp h1),
        (smaAt l closes j).get (Option.ne_none_iff_isSome.mp h2),
        (smaAt s closes (j + 1)).get (Option.ne_none_iff_isSome.mp h3),
        (smaAt l closes (j + 1)).get (Option.ne_none_iff_isSome.mp h4),
        Option.eq_some_of_isSome _, Option.eq_some_of_isSome _,
        Option.eq_some_of_isSome _, Option.eq_some_of_isSome _⟩
    rw [hz]
    refine ⟨iff_of_false (by norm_num) ?_, iff_of_false (by norm_num) ?_,
      Or.inr (Or.inr rfl)⟩
    · rintro ⟨ps1, pl1, cs1, cl1, e1, e2, e3, e4, -, -⟩
      exact hall ⟨ps1, pl1, cs1, cl1, e1, e2, e3, e4⟩
    · rintro ⟨ps1, pl1, cs1, cl1, e1, e2, e3, e4, -, -⟩
      exact hall ⟨ps1, pl1, cs1, cl1, e1, e2, e3, e4⟩

/-- C3 witness: on the demo series with periods 2 and 4, bar 5 is an upward
cross, produced by the theorem from the concrete moving-average values. -/
theorem crossover_sign_characterisation_w : crossoverAt 2 4 demoCloses 5 = 1 :=
  ((crossover_sign_characterisation 2 4 demoCloses).2.1 4).1.mpr
    ⟨10, 10, 21 / 2, 41 / 4,
     by norm_num [smaAt, runningSums, demoCloses],
     by norm_num [smaAt, runningSums, demoCloses],
     by norm_num [smaAt, runningSums, demoCloses],
     by norm_num [smaAt, runningSums, demoCloses],
     by norm_num, by norm_num⟩

/-- C1: in the FLAT state on an upward cross, the engine sizes the order as
the floor of 95% of cash over the close; a non-positive size is a skipped
signal — state unchanged, no order — and a positive size is a buy filled
immediately at the close, debiting cash by `size*price + commission` with
commission `size*price*commission_rate` and opening the position. -/
theorem flat_buy_step (rate close : ℚ) (st : EngineState)
    (hflat : st.size = 0) (hcash : 0 ≤ st.cash) (hclose : 0 < close) :
    (⌊st.cash * (95 / 100) / close⌋ ≤ 0 →
      MovingAverageCrossStrategy.next rate st 1 close = (st, none)) ∧
    (0 < ⌊st.cash * (95 / 100) / close⌋ →
      MovingAverageCrossStrategy.next rate st 1 close =
        ({ st with
            cash := st.cash - ((⌊st.cash * (95 / 100) / close⌋ : ℚ) * close
                      + (⌊st.cash * (95 / 100) / close⌋ : ℚ) * close * rate)
            size := ⌊st.cash * (95 / 100) / close⌋
            entry_price := close
            entry_comm := (⌊st.cash * (95 / 100) / close⌋ : ℚ) * close * rate },
         some ⟨Side.buy, ⌊st.cash * (95 / 100) / close⌋⟩)) := by
  have hq : 0 ≤ st.cash * (95 / 100) / close := by positivity
  have hpy : pyInt (st.cash * (95 / 100) / close) = ⌊st.cash * (95 / 100) / close⌋ :=
    pyInt_eq_floor _ hq
  constructor
  · intro hle
    simp only [MovingAverageCrossStrategy.next, hpy]
    rw [if_pos hflat, if_pos (by norm_num : (0 : Int) < 1), if_pos hle]
  · intro hlt
    simp only [MovingAverageCrossStrategy.next, hpy]
    rw [if_pos hflat, if_pos (by norm_num : (0 : Int) < 1), if_neg (not_le.mpr hlt),
      sub_sub]

/-- C1 witness: from a flat state with 1000 cash at close 12 the computed
size `⌊950/12⌋ = 79` is positive, and the step performs the buy fill the
theorem describes. -/
theorem flat_buy_step_w :
    (0 : Int) < ⌊(initState 1000).cash * (95 / 100) / 12⌋ ∧
    MovingAverageCrossStrategy.next 0 (initState 1000) 1 12 =
      ({ initState 1000 with
          cash := (initState 1000).cash
                    - ((⌊(initState 1000).cash * (95 / 100) / 12⌋ : ℚ) * 12
                      + (⌊(initState 1000).cash * (95 / 100) / 12⌋ : ℚ) * 12 * 0)
          size := ⌊(initState 1000).cash * (95 / 100) / 12⌋
          entry_price := 12
          entry_comm := (⌊(initState 1000).cash * (95 / 100) / 12⌋ : ℚ) * 12 * 0 },
       some ⟨Side.buy, ⌊(initState 1000).cash * (95 / 100) / 12⌋⟩) := by
  have h : (0 : Int) < ⌊(initState 1000).cash * (95 / 100) / 12⌋ := by
    norm_num [initState]
  exact ⟨h, (flat_buy_step 0 12 (initState 1000) rfl (by norm_num [initState])
    (by norm_num)).2 h⟩

/-- C2: in the LONG state on a downward cross, the engine sells the entire
position at the close, credits cash by `size*price - commission`, appends a
closed trade whose gross pnl is `(exit_price - entry_price) * size` and whose
net pnl further subtracts the entry and exit commissions, and clears the
position back to FLAT. -/
theorem long_sell_step (rate close : ℚ) (st : EngineState) (hlong : st.size ≠ 0) :
    MovingAverageCrossStrategy.next rate st (-1) close =
      ({ cash := st.cash + ((st.size : ℚ) * close - (st.size : ℚ) * close * rate)
         size := 0
         entry_price := 0
         entry_comm := 0
         trades := st.trades ++
           [{ entry_price := st.entry_price
              exit_price := close
              size := st.size
              gross_pnl := (close - st.entry_price) * (st.size : ℚ)
              entry_comm := st.entry_comm
              exit_comm := (st.size : ℚ) * close * rate
              net_pnl := (close - st.entry_price) * (st.size : ℚ) - st.entry_comm
                          - (st.size : ℚ) * close * rate }] },
       some ⟨Side.sell, st.size⟩) := by
  simp only [MovingAverageCrossStrategy.next]
  rw [if_neg hlong, if_pos (by norm_num : (-1 : Int) < 0), add_sub_assoc]

/-- C2 witness: the snapshot holding 5 shares bought at 10 sells all of them
at close 9, producing the credited cash and the closed trade record the
theorem describes. -/
theorem long_sell_step_w :
    MovingAverageCrossStrategy.next 0 demoLong (-1) 9 =
      ({ cash := demoLong.cash + ((demoLong.size : ℚ) * 9 - (demoLong.size : ℚ) * 9 * 0)
         size := 0
         entry_price := 0
         entry_comm := 0
         trades := demoLong.trades ++
           [{ entry_price := demoLong.entry_price
              exit_price := 9
              size := demoLong.size
              gross_pnl := (9 - demoLong.entry_price) * (demoLong.size : ℚ)
              entry_comm := demoLong.entry_comm
              exit_comm := (demoLong.size : ℚ) * 9 * 0
              net_pnl := (9 - demoLong.entry_price) * (demoLong.size : ℚ)
                          - demoLong.entry_comm - (demoLong.size : ℚ) * 9 * 0 }] },
       some ⟨Side.sell, demoLong.size⟩) :=
  long_sell_step 0 9 demoLong (by norm_num [demoLong])

/-- C10: a per-bar step submits at most one order — the step's optional
order — and any submitted order respects the state: a buy only while flat on
a positive crossover, a sell only while a position is open on a negative
crossover, and never both sides at once. -/
theorem order_discipline (rate close : ℚ) (st : EngineState) (cross : Int) (o : Order)
    (h : (MovingAverageCrossStrategy.next rate st cross close).2 = some o) :
    (o.side = Side.buy → st.size = 0 ∧ 0 < cross) ∧
    (o.side = Side.sell → st.size ≠ 0 ∧ cross < 0) ∧
    ¬(o.side = Side.buy ∧ o.side = Side.sell) := by
  simp only [MovingAverageCrossStrategy.next] at h
  by_cases h1 : st.size = 0
  · by_cases h2 : 0 < cross
    · by_cases h3 : pyInt (st.cash * (95 / 100) / close) ≤ 0
      · rw [if_pos h1, if_pos h2, if_pos h3] at h
        simp at h
      · rw [if_pos h1, if_pos h2, if_neg h3] at h
        obtain rfl := Option.some.inj h
        exact ⟨fun _ => ⟨h1, h2⟩, fun hs => by simp at hs, by
          rintro ⟨-, hs⟩
          simp at hs⟩
    · rw [if_pos h1, if_neg h2] at h
      simp at h
  · by_cases h4 : cross < 0
    · rw [if_neg h1, if_pos h4] at h
      obtain rfl := Option.some.inj h
      exact ⟨fun hb => by simp at hb, fun _ => ⟨h1, h4⟩, by
        rintro ⟨hb, -⟩
        simp at hb⟩
    · rw [if_neg h1, if_neg h4] at h
      simp at h

/-- C10 witness: from a flat state with 1000 cash on an upward cross at close
10, the step submits the single buy order of 95 shares, and the theorem's
discipline holds for it. -/
theorem order_discipline_w :
    ((⟨Side.buy, 95⟩ : Order).side = Side.buy → (initState 1000).size = 0 ∧ (0 : Int) < 1) ∧
    ((⟨Side.buy, 95⟩ : Order).side = Side.sell → (initState 1000).size ≠ 0 ∧ (1 : Int) < 0) ∧
    ¬((⟨Side.buy, 95⟩ : Order).side = Side.buy ∧ (⟨Side.buy, 95⟩ : Order).side = Side.sell) :=
  order_discipline 0 10 (initState 1000) 1 ⟨Side.buy, 95⟩ (by
    have h : pyInt ((initState 1000).cash * (95 / 100) / 10) = 95 := by
      norm_num [pyInt, initState]
    simp only [MovingAverageCrossStrategy.next, h]
    norm_num [initState])

/-- C8: after every bar of every run, the sampled equity equals cash plus
position size times that bar's close — the accounting identity holds
exactly. -/
theorem equity_accounting_identity (cfg : Config) (cash : ℚ) (closes : List ℚ)
    (i : Nat) (h : i < closes.length) :
    (equityCurve cfg cash closes).getD i 0
      = (stateAfterBar cfg cash closes i).cash
        + ((stateAfterBar cfg cash closes i).size : ℚ) * closes.getD i 0 := by
  have hk := equityList_getD cfg closes (List.range closes.length) (initState cash) i
    (by simpa using h)
  rw [equityCurve, hk, range_getD _ _ h, List.take_range]
  have hmin : min (i + 1) closes.length = i + 1 := by omega
  rw [hmin]
  rfl

/-- C8 witness: on the demo run the identity holds at bar 6. -/
theorem equity_accounting_identity_w :
    (equityCurve demoCfg 1000 demoCloses).getD 6 0
      = (stateAfterBar demoCfg 1000 demoCloses 6).cash
        + ((stateAfterBar demoCfg 1000 demoCloses 6).size : ℚ) * demoCloses.getD 6 0 :=
  equity_accounting_identity demoCfg 1000 demoCloses 6 (by norm_num [demoCloses])

/-- C9: the backtest is a deterministic function of its inputs — two runs
over equal configurations, starting cash and bar series produce the same
trade log, the same final engine state and the same equity curve. -/
theorem backtest_deterministic (cfg1 cfg2 : Config) (cash1 cash2 : ℚ)
    (closes1 closes2 : List ℚ)
    (hc : cfg1 = cfg2) (hk : cash1 = cash2) (hs : closes1 = closes2) :
    (backtestFinal cfg1 cash1 closes1).trades
      = (backtestFinal cfg2 cash2 closes2).trades ∧
    backtestFinal cfg1 cash1 closes1 = backtestFinal cfg2 cash2 closes2 ∧
    equityCurve cfg1 cash1 closes1 = equityCurve cfg2 cash2 closes2 := by
  subst hc
  subst hk
  subst hs
  exact ⟨rfl, rfl, rfl⟩

/-- C9 witness: replaying the demo configuration and series gives identical
trade logs, final states and equity curves. -/
theorem backtest_deterministic_w :
    (backtestFinal demoCfg 1000 demoCloses).trades
      = (backtestFinal demoCfg 1000 demoCloses).trades ∧
    backtestFinal demoCfg 1000 demoCloses = backtestFinal demoCfg 1000 demoCloses ∧
    equityCurve demoCfg 1000 demoCloses = equityCurve demoCfg 1000 demoCloses :=
  backtest_deterministic demoCfg demoCfg 1000 1000 demoCloses demoCloses rfl rfl rfl

/-- C5 counterexample: the configuration with `short_period = 40 ≥
long_period = 30` and a negative commission rate is not rejected —
`run_backtest` runs the simulation on it and returns a normal result instead
of a configuration error. -/
theorem run_backtest_accepts_bad_config :
    run_backtest badCfg 100000 demoCloses
      = Except.ok (backtestFinal badCfg 100000 demoCloses,
          equityCurve badCfg 100000 demoCloses) := rfl

/-- C5 amended: `run_backtest` performs no configuration validation at all —
for every configuration, including those with `short_period ≥ long_period` or
a negative commission rate, it never returns an error and always runs the
simulation to completion. -/
theorem run_backtest_never_rejects (cfg : Config) (cash : ℚ) (closes : List ℚ)
    (msg : String) :
    run_backtest cfg cash closes ≠ Except.error msg ∧
    run_backtest cfg cash closes
      = Except.ok (backtestFinal cfg cash closes, equityCurve cfg cash closes) :=
  ⟨fun h => Except.noConfusion h, rfl⟩
